import Mathlib

/-!
Verification of the crawl engine of the Web-Crawler repository
(src/app/crawler.py, class WebCrawler).

The development shallow-embeds, in order:

1. the parts of the Python standard library urllib.parse that
   WebCrawler._process_url calls (urlparse, urljoin, the fragment
   replacement and geturl), translated from the CPython source of
   Lib/urllib/parse.py.  URLs are five components
   (scheme, netloc, path, query, fragment); the params component that
   the Python ParseResult additionally splits off the last path segment
   is kept merged inside the path here, which is observationally
   equivalent for every operation the crawler performs (the crawler
   reads scheme and netloc, replaces fragment, and reserializes; the
   serialization rejoins path and params with the same semicolon they
   were split at).  Not modelled: the removal of tab and newline bytes,
   and the ValueError on unbalanced brackets in a netloc (inputs are
   assumed free of control characters and of bracket hosts).

2. WebCrawler._process_url and WebCrawler._crawl.  The HTTP client is
   a function from URL to a fetch outcome; fetchErr stands for any
   httpx.RequestError, any non-2xx outcome of raise_for_status, and any
   other exception inside the per-URL try block.  The HTML parse is
   abstracted, per the collaborator contract, to the extracted title
   and the list of anchor href values.  The database session is a
   predicate saying which per-URL record commits succeed, plus flags
   for an exception escaping the batch loop and for the commit that
   follows the COMPLETED assignment.  list(set(new_urls)) is modelled
   as first-occurrence deduplication; the Python set order is
   unspecified, and the engine only consumes membership in that list.
   Records are appended in batch order; the spec leaves the
   within-batch persistence order unspecified.
-/

/-! ## Character-level helpers for the urllib.parse embedding -/

/-- Split a character list at the first occurrence of `c`: returns the
part before it and, when `c` occurs, the part after it. -/
def splitAtFirst (c : Char) : List Char → List Char × Option (List Char)
  | [] => ([], none)
  | x :: xs =>
    if x = c then ([], some xs)
    else
      let r := splitAtFirst c xs
      (x :: r.1, r.2)

/-- The characters that end the netloc portion of a URL. -/
def netlocDelim (c : Char) : Bool := c = '/' ∨ c = '?' ∨ c = '#'

/-- Split off the netloc: everything up to the first of / ? #. -/
def splitNetlocChars : List Char → List Char × List Char
  | [] => ([], [])
  | x :: xs =>
    if netlocDelim x then ([], x :: xs)
    else
      let r := splitNetlocChars xs
      (x :: r.1, r.2)

/-- The characters allowed in a URL scheme (scheme_chars in
Lib/urllib/parse.py). -/
def isSchemeChar (c : Char) : Bool := c.isAlpha || c.isDigit || c = '+' || c = '-' || c = '.'

/-- Scheme detection of urlsplit: the text before the first colon is a
scheme when it is nonempty, starts with a letter, and consists of
scheme characters; the scheme is lowercased. -/
def splitSchemeChars (l : List Char) : Option (List Char × List Char) :=
  match splitAtFirst ':' l with
  | (pre, some rest) =>
    match pre with
    | [] => none
    | c :: cs =>
      if c.isAlpha && (c :: cs).all isSchemeChar then
        some ((c :: cs).map Char.toLower, rest)
      else none
  | (_, none) => none

/-- str.split(c, 1) as urlsplit uses it: text before the first `c`
and text after it (empty when `c` does not occur). -/
def cutAt (c : Char) (l : List Char) : List Char × List Char :=
  match splitAtFirst c l with
  | (a, some t) => (a, t)
  | (a, none) => (a, [])

/-- A parsed URL: the five components of urlsplit, with the params
component of urlparse kept merged inside `path` (see the header). -/
structure Url where
  scheme : List Char
  netloc : List Char
  path : List Char
  query : List Char
  frag : List Char
deriving DecidableEq, Repr

/-- The urlsplit algorithm of Lib/urllib/parse.py: optional scheme
(with `dflt` substituted when absent), netloc after a leading //,
fragment after the first #, query after the first ?. -/
def parseCore (dflt : List Char) (l : List Char) : Url :=
  let sr :=
    match splitSchemeChars l with
    | some sr => sr
    | none => (dflt, l)
  let nr :=
    if sr.2.take 2 = ['/', '/'] then splitNetlocChars (sr.2.drop 2) else ([], sr.2)
  let rf := cutAt '#' nr.2
  let pq := cutAt '?' rf.1
  ⟨sr.1, nr.1, pq.1, pq.2, rf.2⟩

/-- The slash urlunsplit prepends to a nonempty relative path when an
authority is present. -/
def fixP (p : List Char) : List Char :=
  if p ≠ [] ∧ p.head? ≠ some '/' then '/' :: p else p

/-- The urlunsplit algorithm of Lib/urllib/parse.py. -/
def unparseCore (u : Url) : List Char :=
  let url := if u.netloc ≠ [] ∨ u.path.take 2 = ['/', '/'] then
      '/' :: '/' :: (u.netloc ++ fixP u.path)
    else u.path
  let url2 := if u.scheme ≠ [] then u.scheme ++ ':' :: url else url
  let url3 := if u.query ≠ [] then url2 ++ '?' :: u.query else url2
  if u.frag ≠ [] then url3 ++ '#' :: u.frag else url3

/-- urlparse with a default scheme, as urljoin calls it. -/
def urlparseWith (dflt : List Char) (s : String) : Url := parseCore dflt s.data

/-- urlparse as _process_url calls it. -/
def urlparse (s : String) : Url := parseCore [] s.data

/-- geturl / urlunparse on the five-component model. -/
def urlunparse (u : Url) : String := String.mk (unparseCore u)

/-- uses_relative of Lib/urllib/parse.py. -/
def usesRelativeList : List (List Char) :=
  (["", "ftp", "http", "gopher", "nntp", "imap", "wais", "file", "https", "shttp",
    "mms", "prospero", "rtsp", "rtspu", "sftp", "svn", "svn+ssh", "ws", "wss"] :
    List String).map String.data

/-- uses_netloc of Lib/urllib/parse.py. -/
def usesNetlocList : List (List Char) :=
  (["", "ftp", "http", "gopher", "nntp", "telnet", "imap", "wais", "file", "mms",
    "https", "shttp", "snews", "prospero", "rtsp", "rtspu", "rsync", "svn",
    "svn+ssh", "sftp", "nfs", "git", "git+ssh", "ws", "wss"] :
    List String).map String.data

/-- str.split on slash: always returns a nonempty list of segments. -/
def splitOnSlash : List Char → List (List Char)
  | [] => [[]]
  | c :: cs =>
    if c = '/' then [] :: splitOnSlash cs
    else
      match splitOnSlash cs with
      | s :: ss => (c :: s) :: ss
      | [] => [[c]]

/-- Drop empty segments except the final one (the filter urljoin
applies to segments[1:-1], expressed on the tail of the list). -/
def keepNonemptyAndLast : List (List Char) → List (List Char)
  | [] => []
  | [x] => [x]
  | x :: y :: rest =>
    if x.isEmpty then keepNonemptyAndLast (y :: rest)
    else x :: keepNonemptyAndLast (y :: rest)

/-- segments with segments[1:-1] filtered of empties. -/
def filterMiddle : List (List Char) → List (List Char)
  | [] => []
  | x :: xs => x :: keepNonemptyAndLast xs

/-- The dot-segment resolution loop of urljoin: double dot pops (a pop
on an empty stack is ignored), single dot is skipped. -/
def resolveSegs : List (List Char) → List (List Char) → List (List Char)
  | acc, [] => acc
  | acc, s :: rest =>
    if s = ['.', '.'] then resolveSegs acc.dropLast rest
    else if s = ['.'] then resolveSegs acc rest
    else resolveSegs (acc ++ [s]) rest

/-- str.join with slash. -/
def joinSlash (l : List (List Char)) : List Char := List.intercalate ['/'] l

/-- The urljoin algorithm of Lib/urllib/parse.py (with params merged
into the path, see the header). -/
def urljoin (base url : String) : String :=
  if base = "" then url
  else if url = "" then base
  else
    let b := parseCore [] base.data
    let r := parseCore b.scheme url.data
    if ¬(r.scheme = b.scheme ∧ r.scheme ∈ usesRelativeList) then url
    else if r.scheme ∈ usesNetlocList ∧ r.netloc ≠ [] then urlunparse r
    else
      let netloc := if r.scheme ∈ usesNetlocList then b.netloc else r.netloc
      if r.path = [] then
        urlunparse ⟨r.scheme, netloc, b.path, (if r.query = [] then b.query else r.query), r.frag⟩
      else
        let baseParts0 := splitOnSlash b.path
        let baseParts := if baseParts0.getLast? = some [] then baseParts0 else baseParts0.dropLast
        let segments :=
          if r.path.head? = some '/' then splitOnSlash r.path
          else filterMiddle (baseParts ++ splitOnSlash r.path)
        let resolved0 := resolveSegs [] segments
        let resolved :=
          if segments.getLast? = some ['.'] ∨ segments.getLast? = some ['.', '.'] then
            resolved0 ++ [[]]
          else resolved0
        let joined := joinSlash resolved
        urlunparse ⟨r.scheme, netloc, (if joined = [] then ['/'] else joined), r.query, r.frag⟩

/-- parsed_url._replace(fragment=''), before geturl. -/
def stripFragU (u : Url) : Url := ⟨u.scheme, u.netloc, u.path, u.query, []⟩

/-- The inline link-normalization block of _process_url, as a function
of the base URL (the url argument of _process_url) and one href:
resolve with urljoin, keep only http/https URLs on the netloc of the
base, strip the fragment, reserialize. -/
def normalizeScope (base href : String) : Option String :=
  let abs := urljoin base href
  let p := urlparse abs
  let bp := urlparse base
  if (p.scheme = "http".data ∨ p.scheme = "https".data) ∧ p.netloc = bp.netloc then
    some (urlunparse (stripFragU p))
  else none

/-- The fragment-stripping normal form of a URL string (resolution
aside, the normalization the crawler applies to every stored link). -/
def normStr (s : String) : String := urlunparse (stripFragU (urlparse s))

/-! ## The crawl engine -/

/-- The constructor parameters of WebCrawler (max_workers, max_depth)
together with the total-visited constant 1000 hardcoded in the loop
condition of _crawl; the spec names it max_visited with default 1000. -/
structure CrawlerConfig where
  maxWorkers : Nat
  maxDepth : Nat
  maxVisited : Nat
deriving DecidableEq, Repr

/-- What a successful fetch of one URL yields: the post-redirect final
URL (response.url), the extracted title, and the anchor href values of
the body. -/
structure PageSpec where
  finalUrl : String
  title : Option String
  hrefs : List String
deriving DecidableEq, Repr

/-- Outcome of client.get plus raise_for_status: a page, or any of the
exceptions the per-URL handlers catch. -/
inductive FetchResult where
  | ok (page : PageSpec)
  | fetchErr
deriving DecidableEq, Repr

/-- The transport: what fetching each URL returns. -/
abbrev Web := String → FetchResult

/-- A CrawledUrl row as _process_url persists it (the job id is fixed
per run and omitted). -/
structure CrawledRecord where
  url : String
  title : Option String
deriving DecidableEq, Repr

/-- The dict result of _process_url. -/
structure PageResult where
  depth : Nat
  newUrls : List String
deriving DecidableEq, Repr

/-- Model of list(set(new_urls)): first-occurrence deduplication. -/
def dedupFirst (seen : List String) : List String → List String
  | [] => []
  | x :: xs => if x ∈ seen then dedupFirst seen xs else x :: dedupFirst (seen ++ [x]) xs

/-- WebCrawler._process_url on an already-resolved fetch outcome:
on any fetch failure return an empty result; otherwise persist the
record (a failing commit is caught by the generic handler, which also
yields the empty result and no stored row), then extract, scope and
deduplicate links only below max_depth. -/
def processUrl (cfg : CrawlerConfig) (persist : String → Bool) (fetched : FetchResult)
    (url : String) (depth : Nat) : Option CrawledRecord × PageResult :=
  match fetched with
  | .fetchErr => (none, ⟨depth, []⟩)
  | .ok page =>
    if persist url then
      if depth < cfg.maxDepth then
        (some ⟨url, page.title⟩,
         ⟨depth, dedupFirst [] (page.hrefs.filterMap (normalizeScope url))⟩)
      else (some ⟨url, page.title⟩, ⟨depth, []⟩)
    else (none, ⟨depth, []⟩)

/-- The in-memory state of one run of _crawl.  `dequeued` is a ghost
field recording, in order, every item sliced off the front of
urls_to_visit; it affects nothing else and exists to state traversal
order. -/
structure CrawlState where
  visited : List String
  frontier : List (String × Nat)
  records : List CrawledRecord
  dequeued : List (String × Nat)
deriving DecidableEq, Repr

/-- The task-collection loop over one batch: each item whose URL is
not yet visited is added to the visited set at that moment and
scheduled; later duplicates in the same batch see the update. -/
def selectTasks (visited : List String) : List (String × Nat) → List String × List (String × Nat)
  | [] => (visited, [])
  | item :: rest =>
    if item.1 ∈ visited then selectTasks visited rest
    else
      let r := selectTasks (visited ++ [item.1]) rest
      (r.1, item :: r.2)

/-- The frontier contribution of a batch of results: every new URL not
in the visited set whose originating depth is below max_depth, tagged
depth + 1, in result order. -/
def newItemsOf (cfg : CrawlerConfig) (visited : List String)
    (results : List (Option CrawledRecord × PageResult)) : List (String × Nat) :=
  results.flatMap fun r =>
    (r.2.newUrls.filter fun u => decide (u ∉ visited ∧ r.2.depth < cfg.maxDepth)).map
      fun u => (u, r.2.depth + 1)

/-- One iteration of the while loop of _crawl: slice a batch of up to
max_workers items off the front, mark and process the unvisited ones,
append the discovered items at the back. -/
def step (cfg : CrawlerConfig) (web : Web) (persist : String → Bool) (s : CrawlState) :
    CrawlState :=
  let batch := s.frontier.take cfg.maxWorkers
  let rest := s.frontier.drop cfg.maxWorkers
  let vt := selectTasks s.visited batch
  let results := vt.2.map fun t => processUrl cfg persist (web t.1) t.1 t.2
  ⟨vt.1, rest ++ newItemsOf cfg vt.1 results,
   s.records ++ results.filterMap Prod.fst, s.dequeued ++ batch⟩

/-- The while loop of _crawl, fuel-indexed: none means the loop has
not terminated within `fuel` iterations. -/
def crawlLoop (cfg : CrawlerConfig) (web : Web) (persist : String → Bool) :
    Nat → CrawlState → Option CrawlState
  | 0, _ => none
  | fuel + 1, s =>
    if s.frontier ≠ [] ∧ s.visited.length < cfg.maxVisited then
      crawlLoop cfg web persist fuel (step cfg web persist s)
    else some s

/-- CrawlStatus of app/models.py. -/
inductive JobStatus where
  | inProgress | completed | failed
deriving DecidableEq, Repr

/-- The failure behaviour of the database session during one run:
which per-URL record commits succeed, whether an exception escapes the
batch loop itself (for example session failure while the loop body
runs; modelled as escaping before the first batch), and whether the
commit after the COMPLETED assignment succeeds. -/
structure StoreBehavior where
  persistOk : String → Bool
  loopFails : Bool
  completedCommitOk : Bool

/-- The observable outcome of _crawl on one job: the final in-memory
job.status, the trace of assignments to job.status after the initial
IN_PROGRESS, the persisted rows, the visited set, and the ghost
dequeue order. -/
structure JobOutcome where
  status : JobStatus
  statusTrace : List JobStatus
  records : List CrawledRecord
  visited : List String
  dequeued : List (String × Nat)
deriving DecidableEq, Repr

/-- The initial loop state of _crawl: empty visited set, the seed at
depth 0 in the frontier. -/
def initState (seed : String) : CrawlState := ⟨[], [(seed, 0)], [], []⟩

/-- WebCrawler._crawl after the job lookup: run the loop inside the
try block; on normal exit assign COMPLETED and commit; if that commit
raises, or the loop itself raises, the except handler assigns FAILED
and commits. -/
def runCrawl (fuel : Nat) (cfg : CrawlerConfig) (web : Web) (store : StoreBehavior)
    (seed : String) : Option JobOutcome :=
  if store.loopFails then some ⟨.failed, [.failed], [], [], []⟩
  else
    match crawlLoop cfg web store.persistOk fuel (initState seed) with
    | none => none
    | some s =>
      if store.completedCommitOk then
        some ⟨.completed, [.completed], s.records, s.visited, s.dequeued⟩
      else
        some ⟨.failed, [.completed, .failed], s.records, s.visited, s.dequeued⟩

/-! ## Concrete instances used by counterexamples and witnesses -/

/-- The constructor defaults of WebCrawler with the hardcoded cap. -/
def cfgDefault : CrawlerConfig := ⟨10, 2, 1000⟩

/-- A store where every commit succeeds. -/
def storeOk : StoreBehavior := ⟨fun _ => true, false, true⟩

/-- A store where only the commit after the COMPLETED assignment
raises. -/
def storeBadCommit : StoreBehavior := ⟨fun _ => true, false, false⟩

/-- A site where the page requested at http://a/p redirects to
http://b/q and links both hosts. -/
def webRedirect : Web := fun u =>
  if u = "http://a/p" then .ok ⟨"http://b/q", none, ["http://b/x", "http://a/y"]⟩
  else .fetchErr

/-- A site whose seed carries a fragment and links its own
fragment-free form. -/
def webFragSeed : Web := fun u =>
  if u = "http://a/p#x" then .ok ⟨"http://a/p", none, ["http://a/p"]⟩
  else if u = "http://a/p" then .ok ⟨"http://a/p", none, []⟩
  else .fetchErr

/-- A seed page with three in-scope links to pages that fail to
fetch. -/
def webThreeLinks : Web := fun u =>
  if u = "http://a/" then .ok ⟨"http://a/", none, ["http://a/1", "http://a/2", "http://a/3"]⟩
  else .fetchErr

/-- A two-level site: the seed links two pages, one of which links a
third. -/
def webChain : Web := fun u =>
  if u = "http://a/" then .ok ⟨"http://a/", none, ["http://a/1", "http://a/2"]⟩
  else if u = "http://a/1" then .ok ⟨"http://a/1", none, ["http://a/3"]⟩
  else if u = "http://a/3" then .ok ⟨"http://a/3", none, []⟩
  else .fetchErr

/-- A site where every fetch fails. -/
def webNone : Web := fun _ => .fetchErr

/-- A store where no per-URL record commit succeeds but the terminal
commit does. -/
def storeBadPersist : StoreBehavior := ⟨fun _ => false, false, true⟩

/-- The breadth-first order invariant of one crawl state: frontier
depths are non-decreasing and pairwise within one level of each other,
already-dequeued depths are non-decreasing, and every dequeued depth
is at most every frontier depth. -/
def DepthInv (s : CrawlState) : Prop :=
  (s.frontier.map Prod.snd).Pairwise (· ≤ ·) ∧
  (∀ a ∈ s.frontier.map Prod.snd, ∀ b ∈ s.frontier.map Prod.snd, a ≤ b + 1) ∧
  (s.dequeued.map Prod.snd).Pairwise (· ≤ ·) ∧
  (∀ a ∈ s.dequeued.map Prod.snd, ∀ b ∈ s.frontier.map Prod.snd, a ≤ b)

/-! ## Helper lemmas: the page processor -/

theorem mem_dedupFirst {x : String} : ∀ (seen l : List String),
    x ∈ dedupFirst seen l ↔ x ∈ l ∧ x ∉ seen := by
  intro seen l
  induction l generalizing seen with
  | nil => simp [dedupFirst]
  | cons y ys ih =>
    by_cases hy : y ∈ seen
    · simp only [dedupFirst, if_pos hy, ih, List.mem_cons]
      constructor
      · rintro ⟨hm, hn⟩; exact ⟨Or.inr hm, hn⟩
      · rintro ⟨hm | hm, hn⟩
        · exact absurd (hm ▸ hy) hn
        · exact ⟨hm, hn⟩
    · simp only [dedupFirst, if_neg hy, List.mem_cons, ih, List.mem_append,
        List.mem_singleton]
      constructor
      · rintro (rfl | ⟨hm, hn⟩)
        · exact ⟨Or.inl rfl, hy⟩
        · exact ⟨Or.inr hm, fun hc => hn (Or.inl hc)⟩
      · rintro ⟨rfl | hm, hn⟩
        · exact Or.inl rfl
        · by_cases hxy : x = y
          · exact Or.inl hxy
          · exact Or.inr ⟨hm, by simp [hn, hxy]⟩

theorem processUrl_depth (cfg : CrawlerConfig) (persist : String → Bool)
    (f : FetchResult) (u : String) (d : Nat) :
    (processUrl cfg persist f u d).2.depth = d := by
  cases f with
  | fetchErr => rfl
  | ok page =>
    simp only [processUrl]
    by_cases hp : persist u <;> by_cases hd : d < cfg.maxDepth <;> simp [hp, hd]

theorem processUrl_record {cfg : CrawlerConfig} {persist : String → Bool}
    {f : FetchResult} {u : String} {d : Nat} {rec : CrawledRecord}
    (h : (processUrl cfg persist f u d).1 = some rec) :
    ∃ page, f = .ok page ∧ rec = ⟨u, page.title⟩ := by
  cases f with
  | fetchErr => simp [processUrl] at h
  | ok page =>
    refine ⟨page, rfl, ?_⟩
    simp only [processUrl] at h
    by_cases hp : persist u <;> by_cases hd : d < cfg.maxDepth <;>
      simp [hp, hd] at h <;> exact h.symm

/-! ## Helper lemmas: batch selection and the step function -/

theorem selectTasks_snd_sublist : ∀ (v : List String) (b : List (String × Nat)),
    (selectTasks v b).2.Sublist b := by
  intro v b
  induction b generalizing v with
  | nil => simp [selectTasks]
  | cons item rest ih =>
    by_cases hm : item.1 ∈ v
    · simp only [selectTasks, if_pos hm]
      exact (ih v).cons item
    · simp only [selectTasks, if_neg hm]
      exact (ih (v ++ [item.1])).cons₂ item

theorem selectTasks_fst : ∀ (v : List String) (b : List (String × Nat)),
    (selectTasks v b).1 = v ++ (selectTasks v b).2.map Prod.fst := by
  intro v b
  induction b generalizing v with
  | nil => simp [selectTasks]
  | cons item rest ih =>
    by_cases hm : item.1 ∈ v
    · simp only [selectTasks, if_pos hm]; exact ih v
    · simp only [selectTasks, if_neg hm, List.map_cons]
      rw [ih (v ++ [item.1])]
      simp

theorem selectTasks_new_not_mem : ∀ (v : List String) (b : List (String × Nat)),
    ∀ u ∈ (selectTasks v b).2.map Prod.fst, u ∉ v := by
  intro v b
  induction b generalizing v with
  | nil => simp [selectTasks]
  | cons item rest ih =>
    by_cases hm : item.1 ∈ v
    · simp only [selectTasks, if_pos hm]; exact ih v
    · simp only [selectTasks, if_neg hm, List.map_cons, List.mem_cons]
      rintro u (rfl | hu)
      · exact hm
      · intro hv
        exact ih (v ++ [item.1]) u hu (List.mem_append_left _ hv)

theorem selectTasks_new_nodup : ∀ (v : List String) (b : List (String × Nat)),
    ((selectTasks v b).2.map Prod.fst).Nodup := by
  intro v b
  induction b generalizing v with
  | nil => simp [selectTasks]
  | cons item rest ih =>
    by_cases hm : item.1 ∈ v
    · simp only [selectTasks, if_pos hm]; exact ih v
    · simp only [selectTasks, if_neg hm, List.map_cons, List.nodup_cons]
      refine ⟨fun hc => ?_, ih (v ++ [item.1])⟩
      exact selectTasks_new_not_mem (v ++ [item.1]) rest item.1 hc
        (List.mem_append_right _ (List.mem_singleton.mpr rfl))

theorem records_url_sublist (cfg : CrawlerConfig) (persist : String → Bool) (web : Web) :
    ∀ ts : List (String × Nat),
    (((ts.map fun t => processUrl cfg persist (web t.1) t.1 t.2).filterMap
        Prod.fst).map CrawledRecord.url).Sublist (ts.map Prod.fst) := by
  intro ts
  induction ts with
  | nil => simp
  | cons t rest ih =>
    simp only [List.map_cons, List.filterMap_cons]
    cases h : (processUrl cfg persist (web t.1) t.1 t.2).1 with
    | none => exact ih.cons t.1
    | some rec =>
      obtain ⟨page, _, rfl⟩ := processUrl_record h
      exact ih.cons₂ t.1

theorem step_visited_eq (cfg : CrawlerConfig) (web : Web) (persist : String → Bool)
    (s : CrawlState) :
    (step cfg web persist s).visited =
      s.visited ++ (selectTasks s.visited (s.frontier.take cfg.maxWorkers)).2.map Prod.fst := by
  simp only [step]
  exact selectTasks_fst _ _

theorem step_visited_length (cfg : CrawlerConfig) (web : Web) (persist : String → Bool)
    (s : CrawlState) :
    (step cfg web persist s).visited.length ≤ s.visited.length + cfg.maxWorkers := by
  rw [step_visited_eq]
  have h1 : ((selectTasks s.visited (s.frontier.take cfg.maxWorkers)).2.map
      Prod.fst).length ≤ (s.frontier.take cfg.maxWorkers).length := by
    rw [List.length_map]
    exact (selectTasks_snd_sublist _ _).length_le
  have h2 : (s.frontier.take cfg.maxWorkers).length ≤ cfg.maxWorkers :=
    List.length_take_le _ _
  rw [List.length_append]
  omega

/-! ## A generic loop invariant principle for _crawl -/

theorem step_frontier_eq (cfg : CrawlerConfig) (web : Web) (persist : String → Bool)
    (s : CrawlState) :
    (step cfg web persist s).frontier =
      s.frontier.drop cfg.maxWorkers ++
        newItemsOf cfg (selectTasks s.visited (s.frontier.take cfg.maxWorkers)).1
          ((selectTasks s.visited (s.frontier.take cfg.maxWorkers)).2.map
            fun t => processUrl cfg persist (web t.1) t.1 t.2) := rfl

theorem step_records_eq (cfg : CrawlerConfig) (web : Web) (persist : String → Bool)
    (s : CrawlState) :
    (step cfg web persist s).records =
      s.records ++
        ((selectTasks s.visited (s.frontier.take cfg.maxWorkers)).2.map
            fun t => processUrl cfg persist (web t.1) t.1 t.2).filterMap Prod.fst := rfl

theorem step_dequeued_eq (cfg : CrawlerConfig) (web : Web) (persist : String → Bool)
    (s : CrawlState) :
    (step cfg web persist s).dequeued = s.dequeued ++ s.frontier.take cfg.maxWorkers := rfl

theorem crawlLoop_invariant {cfg : CrawlerConfig} {web : Web} {persist : String → Bool}
    (P : CrawlState → Prop)
    (hstep : ∀ s, P s → s.frontier ≠ [] → s.visited.length < cfg.maxVisited →
      P (step cfg web persist s)) :
    ∀ (fuel : Nat) (s sf : CrawlState), P s →
      crawlLoop cfg web persist fuel s = some sf → P sf := by
  intro fuel
  induction fuel with
  | zero => intro s sf _ h; simp [crawlLoop] at h
  | succ n ih =>
    intro s sf hP h
    simp only [crawlLoop] at h
    split at h
    · rename_i hc
      exact ih _ _ (hstep s hP hc.1 hc.2) h
    · cases h; exact hP

/-! ## Helper lemmas: depths through the processor and the frontier -/

theorem results_depths (cfg : CrawlerConfig) (persist : String → Bool) (web : Web) :
    ∀ ts : List (String × Nat),
    ((ts.map fun t => processUrl cfg persist (web t.1) t.1 t.2).map
        fun r => r.2.depth) = ts.map Prod.snd := by
  intro ts
  induction ts with
  | nil => rfl
  | cons t rest ih => simp [processUrl_depth, ih]

theorem newItemsOf_forall (cfg : CrawlerConfig) (v : List String)
    (rs : List (Option CrawledRecord × PageResult)) :
    ∀ x ∈ newItemsOf cfg v rs, ∃ r ∈ rs, x.2 = r.2.depth + 1 := by
  intro x hx
  simp only [newItemsOf, List.mem_flatMap, List.mem_map, List.mem_filter] at hx
  obtain ⟨r, hr, u, _, rfl⟩ := hx
  exact ⟨r, hr, rfl⟩

theorem pairwise_le_of_all_eq {l : List Nat} {c : Nat} (h : ∀ x ∈ l, x = c) :
    l.Pairwise (· ≤ ·) := by
  induction l with
  | nil => exact List.Pairwise.nil
  | cons x xs ih =>
    refine List.pairwise_cons.mpr ⟨fun y hy => ?_, ih fun y hy => h y (List.mem_cons_of_mem _ hy)⟩
    rw [h x (List.mem_cons_self ..), h y (List.mem_cons_of_mem _ hy)]

theorem newItemsOf_snd_all_eq (cfg : CrawlerConfig) (v : List String)
    (r : Option CrawledRecord × PageResult) :
    ∀ x ∈ (newItemsOf cfg v [r]).map Prod.snd, x = r.2.depth + 1 := by
  intro x hx
  simp only [List.mem_map] at hx
  obtain ⟨y, hy, rfl⟩ := hx
  obtain ⟨r', hr', h⟩ := newItemsOf_forall cfg v [r] y hy
  rw [List.mem_singleton] at hr'
  rw [h, hr']

theorem newItemsOf_cons (cfg : CrawlerConfig) (v : List String)
    (r : Option CrawledRecord × PageResult) (rs : List (Option CrawledRecord × PageResult)) :
    newItemsOf cfg v (r :: rs) = newItemsOf cfg v [r] ++ newItemsOf cfg v rs := by
  simp [newItemsOf]

theorem newItemsOf_snd_pairwise (cfg : CrawlerConfig) (v : List String) :
    ∀ rs : List (Option CrawledRecord × PageResult),
    ((rs.map fun r => r.2.depth).Pairwise (· ≤ ·)) →
    ((newItemsOf cfg v rs).map Prod.snd).Pairwise (· ≤ ·) := by
  intro rs
  induction rs with
  | nil => intro _; simp [newItemsOf]
  | cons r rest ih =>
    intro h
    rw [List.map_cons, List.pairwise_cons] at h
    rw [newItemsOf_cons, List.map_append]
    refine List.pairwise_append.mpr ⟨?_, ih h.2, ?_⟩
    · exact pairwise_le_of_all_eq (newItemsOf_snd_all_eq cfg v r)
    · intro a ha b hb
      rw [newItemsOf_snd_all_eq cfg v r a ha]
      simp only [List.mem_map] at hb
      obtain ⟨y, hy, rfl⟩ := hb
      obtain ⟨r', hr', hd⟩ := newItemsOf_forall cfg v rest y hy
      rw [hd]
      have := h.1 r'.2.depth (List.mem_map.mpr ⟨r', hr', rfl⟩)
      omega

theorem step_preserves_DepthInv (cfg : CrawlerConfig) (web : Web) (persist : String → Bool)
    (s : CrawlState) (h : DepthInv s) : DepthInv (step cfg web persist s) := by
  obtain ⟨hF, hSpan, hQ, hQF⟩ := h
  have hsplit : s.frontier.map Prod.snd =
      (s.frontier.take cfg.maxWorkers).map Prod.snd ++
        (s.frontier.drop cfg.maxWorkers).map Prod.snd := by
    rw [← List.map_append, List.take_append_drop]
  have hBR := hsplit ▸ hF
  obtain ⟨hB, hR, hcross⟩ := List.pairwise_append.mp hBR
  have hmemB : ∀ b ∈ (s.frontier.take cfg.maxWorkers).map Prod.snd,
      b ∈ s.frontier.map Prod.snd := by
    intro b hb; rw [hsplit]; exact List.mem_append_left _ hb
  have hmemR : ∀ b ∈ (s.frontier.drop cfg.maxWorkers).map Prod.snd,
      b ∈ s.frontier.map Prod.snd := by
    intro b hb; rw [hsplit]; exact List.mem_append_right _ hb
  have htasks : ((selectTasks s.visited (s.frontier.take cfg.maxWorkers)).2.map
      Prod.snd).Sublist ((s.frontier.take cfg.maxWorkers).map Prod.snd) :=
    (selectTasks_snd_sublist _ _).map Prod.snd
  -- every depth appended to the frontier is a dequeued task depth plus one
  have hnews : ∀ x ∈ (newItemsOf cfg
        (selectTasks s.visited (s.frontier.take cfg.maxWorkers)).1
        ((selectTasks s.visited (s.frontier.take cfg.maxWorkers)).2.map
          fun t => processUrl cfg persist (web t.1) t.1 t.2)).map Prod.snd,
      ∃ d ∈ (s.frontier.take cfg.maxWorkers).map Prod.snd, x = d + 1 := by
    intro x hx
    simp only [List.mem_map] at hx
    obtain ⟨y, hy, rfl⟩ := hx
    obtain ⟨r, hr, hd⟩ := newItemsOf_forall _ _ _ y hy
    simp only [List.mem_map] at hr
    obtain ⟨t, ht, rfl⟩ := hr
    rw [processUrl_depth] at hd
    refine ⟨t.2, ?_, hd⟩
    exact htasks.subset (List.mem_map.mpr ⟨t, ht, rfl⟩)
  have hnewsPW : ((newItemsOf cfg
        (selectTasks s.visited (s.frontier.take cfg.maxWorkers)).1
        ((selectTasks s.visited (s.frontier.take cfg.maxWorkers)).2.map
          fun t => processUrl cfg persist (web t.1) t.1 t.2)).map Prod.snd).Pairwise
      (· ≤ ·) := by
    refine newItemsOf_snd_pairwise _ _ _ ?_
    rw [results_depths]
    exact hB.sublist htasks
  refine ⟨?_, ?_, ?_, ?_⟩
  · rw [step_frontier_eq, List.map_append]
    refine List.pairwise_append.mpr ⟨hR, hnewsPW, ?_⟩
    intro a ha b hb
    obtain ⟨d, hd, rfl⟩ := hnews b hb
    have := hSpan a (hmemR a ha) d (hmemB d hd)
    omega
  · rw [step_frontier_eq, List.map_append]
    intro a ha b hb
    rw [List.mem_append] at ha hb
    rcases ha with ha | ha <;> rcases hb with hb | hb
    · exact hSpan a (hmemR a ha) b (hmemR b hb)
    · obtain ⟨d, hd, rfl⟩ := hnews b hb
      have := hSpan a (hmemR a ha) d (hmemB d hd)
      omega
    · obtain ⟨d, hd, rfl⟩ := hnews a ha
      have := hcross d hd b hb
      omega
    · obtain ⟨d1, hd1, rfl⟩ := hnews a ha
      obtain ⟨d2, hd2, rfl⟩ := hnews b hb
      have := hSpan d1 (hmemB d1 hd1) d2 (hmemB d2 hd2)
      omega
  · rw [step_dequeued_eq, List.map_append]
    refine List.pairwise_append.mpr ⟨hQ, hB, ?_⟩
    intro a ha b hb
    exact hQF a ha b (hmemB b hb)
  · rw [step_dequeued_eq, step_frontier_eq, List.map_append, List.map_append]
    intro a ha b hb
    rw [List.mem_append] at ha hb
    rcases ha with ha | ha <;> rcases hb with hb | hb
    · exact hQF a ha b (hmemR b hb)
    · obtain ⟨d, hd, rfl⟩ := hnews b hb
      have := hQF a ha d (hmemB d hd)
      omega
    · exact hcross a ha b hb
    · obtain ⟨d, hd, rfl⟩ := hnews b hb
      have := hSpan a (hmemB a ha) d (hmemB d hd)
      omega

/-! ## Helper lemmas: unpacking one run of _crawl -/

theorem runCrawl_outcome {fuel : Nat} {cfg : CrawlerConfig} {web : Web}
    {store : StoreBehavior} {seed : String} {o : JobOutcome}
    (h : runCrawl fuel cfg web store seed = some o) :
    (store.loopFails = true ∧ o = ⟨.failed, [.failed], [], [], []⟩) ∨
    (store.loopFails = false ∧
      ∃ s, crawlLoop cfg web store.persistOk fuel (initState seed) = some s ∧
        o.records = s.records ∧ o.visited = s.visited ∧ o.dequeued = s.dequeued ∧
        ((store.completedCommitOk = true ∧ o.status = .completed ∧
            o.statusTrace = [.completed]) ∨
         (store.completedCommitOk = false ∧ o.status = .failed ∧
            o.statusTrace = [.completed, .failed]))) := by
  by_cases hl : store.loopFails
  · left
    refine ⟨hl, ?_⟩
    simp only [runCrawl, if_pos hl] at h
    exact (Option.some.inj h).symm
  · right
    refine ⟨by simp [hl], ?_⟩
    simp only [runCrawl, if_neg hl] at h
    cases hcl : crawlLoop cfg web store.persistOk fuel (initState seed) with
    | none => rw [hcl] at h; simp at h
    | some s =>
      rw [hcl] at h
      refine ⟨s, rfl, ?_⟩
      by_cases hc : store.completedCommitOk
      · simp only [if_pos hc] at h
        obtain rfl := (Option.some.inj h).symm
        exact ⟨rfl, rfl, rfl, Or.inl ⟨hc, rfl, rfl⟩⟩
      · simp only [if_neg hc] at h
        obtain rfl := (Option.some.inj h).symm
        exact ⟨rfl, rfl, rfl, Or.inr ⟨by simp [hc], rfl, rfl⟩⟩

/-! ## Helper lemmas: at-most-once fetching -/

theorem step_preserves_onceInv (cfg : CrawlerConfig) (web : Web) (persist : String → Bool)
    (s : CrawlState)
    (h1 : s.visited.Nodup)
    (h2 : (s.records.map CrawledRecord.url).Nodup)
    (h3 : ∀ r ∈ s.records, r.url ∈ s.visited)
    (h4 : ∀ u ∈ s.visited, ∃ d, (u, d) ∈ s.dequeued) :
    (step cfg web persist s).visited.Nodup ∧
    ((step cfg web persist s).records.map CrawledRecord.url).Nodup ∧
    (∀ r ∈ (step cfg web persist s).records, r.url ∈ (step cfg web persist s).visited) ∧
    (∀ u ∈ (step cfg web persist s).visited,
      ∃ d, (u, d) ∈ (step cfg web persist s).dequeued) := by
  have hsubN := records_url_sublist cfg persist web
    (selectTasks s.visited (s.frontier.take cfg.maxWorkers)).2
  have hdisj : ∀ a ∈ s.visited,
      a ∉ (selectTasks s.visited (s.frontier.take cfg.maxWorkers)).2.map Prod.fst :=
    fun a ha hb => selectTasks_new_not_mem _ _ a hb ha
  refine ⟨?_, ?_, ?_, ?_⟩
  · rw [step_visited_eq]
    exact h1.append (selectTasks_new_nodup _ _) fun a ha hb => hdisj a ha hb
  · rw [step_records_eq, List.map_append]
    refine (h2.append ((selectTasks_new_nodup _ _).sublist hsubN)) ?_
    intro a ha hb
    obtain ⟨r, hr, rfl⟩ := List.mem_map.mp ha
    exact hdisj r.url (h3 r hr) (hsubN.subset hb)
  · rw [step_records_eq, step_visited_eq]
    intro r hr
    rcases List.mem_append.mp hr with hr | hr
    · exact List.mem_append_left _ (h3 r hr)
    · exact List.mem_append_right _ (hsubN.subset (List.mem_map.mpr ⟨r, hr, rfl⟩))
  · rw [step_visited_eq, step_dequeued_eq]
    intro u hu
    rcases List.mem_append.mp hu with hu | hu
    · obtain ⟨d, hd⟩ := h4 u hu
      exact ⟨d, List.mem_append_left _ hd⟩
    · obtain ⟨t, ht, rfl⟩ := List.mem_map.mp hu
      exact ⟨t.2, List.mem_append_right _ ((selectTasks_snd_sublist _ _).subset ht)⟩

/-! ## Helper lemmas: records only from successful fetches -/

theorem step_preserves_recordsOk (cfg : CrawlerConfig) (web : Web) (persist : String → Bool)
    (s : CrawlState)
    (h : ∀ r ∈ s.records, ∃ page, web r.url = .ok page ∧ r.title = page.title) :
    ∀ r ∈ (step cfg web persist s).records,
      ∃ page, web r.url = .ok page ∧ r.title = page.title := by
  rw [step_records_eq]
  intro r hr
  rcases List.mem_append.mp hr with hr | hr
  · exact h r hr
  · obtain ⟨a, ha, hfa⟩ := List.mem_filterMap.mp hr
    obtain ⟨t, _, rfl⟩ := List.mem_map.mp ha
    obtain ⟨page, hpage, rfl⟩ := processUrl_record hfa
    exact ⟨page, by rw [hpage], rfl⟩

/-! ## Claims C1 - C6, C9, C10 -/

/-- Claim C1 (amended): link scoping in _process_url is evaluated
against the URL that was requested (the url argument), not against the
post-redirect final URL of the response: the processor output is
unchanged when only the final URL of the page differs, and a discovered
href is kept exactly when the record commit succeeds, the depth is
below max_depth, and the href normalizes in the scope of the requested
URL. -/
theorem C1_scope_uses_request_url :
    (∀ (cfg : CrawlerConfig) (persist : String → Bool) (url : String) (depth : Nat)
        (page page' : PageSpec), page.title = page'.title → page.hrefs = page'.hrefs →
        processUrl cfg persist (.ok page) url depth =
          processUrl cfg persist (.ok page') url depth) ∧
    (∀ (cfg : CrawlerConfig) (persist : String → Bool) (url : String) (depth : Nat)
        (page : PageSpec) (u : String),
        u ∈ (processUrl cfg persist (.ok page) url depth).2.newUrls ↔
          (persist url = true ∧ depth < cfg.maxDepth ∧
           ∃ href ∈ page.hrefs, normalizeScope url href = some u)) := by
  constructor
  · intro cfg persist url depth page page' ht hh
    cases page with
    | mk f t hl =>
      cases page' with
      | mk f' t' hl' =>
        simp only at ht hh
        subst ht; subst hh
        rfl
  · intro cfg persist url depth page u
    simp only [processUrl]
    by_cases hp : persist url
    · by_cases hd : depth < cfg.maxDepth
      · simp [hp, hd, mem_dedupFirst, List.mem_filterMap]
      · simp [hp, hd]
    · simp [hp]

/-- Witness for C1: changing only the post-redirect final URL of the
fetched page leaves the processor result identical. -/
theorem C1_scope_witness :
    processUrl cfgDefault (fun _ => true)
        (.ok ⟨"http://b/q", none, ["http://a/y"]⟩) "http://a/p" 0 =
      processUrl cfgDefault (fun _ => true)
        (.ok ⟨"http://a/p", none, ["http://a/y"]⟩) "http://a/p" 0 :=
  C1_scope_uses_request_url.1 cfgDefault (fun _ => true) "http://a/p" 0
    ⟨"http://b/q", none, ["http://a/y"]⟩ ⟨"http://a/p", none, ["http://a/y"]⟩ rfl rfl

/-- Counterexample to C1 as stated: the page requested at http://a/p
was redirected to http://b/q, yet the href on the final host b is
dropped and the href on the requested host a is kept. -/
theorem C1_scope_counterexample :
    webRedirect "http://a/p" =
      .ok ⟨"http://b/q", none, ["http://b/x", "http://a/y"]⟩ ∧
    (processUrl cfgDefault (fun _ => true) (webRedirect "http://a/p")
        "http://a/p" 0).2.newUrls = ["http://a/y"] ∧
    (urlparse (urljoin "http://a/p" "http://b/x")).netloc =
      (urlparse "http://b/q").netloc ∧
    "http://b/x" ∉ ["http://a/y"] ∧
    (urlparse (urljoin "http://a/p" "http://a/y")).netloc ≠
      (urlparse "http://b/q").netloc := by
  refine ⟨rfl, by decide, by decide, by decide, by decide⟩

/-- Claim C2 (amended): at normal loop termination the visited set
holds at most max_visited - 1 + max_workers URLs; the cap is checked
only between batches, so max_visited itself can be exceeded. -/
theorem C2_visited_bound :
    ∀ (fuel : Nat) (cfg : CrawlerConfig) (web : Web) (store : StoreBehavior)
      (seed : String) (o : JobOutcome),
      runCrawl fuel cfg web store seed = some o →
      o.visited.length ≤ cfg.maxVisited - 1 + cfg.maxWorkers := by
  intro fuel cfg web store seed o h
  rcases runCrawl_outcome h with ⟨_, rfl⟩ | ⟨_, s, hcl, _, hvis, _⟩
  · simp
  · rw [hvis]
    exact crawlLoop_invariant
      (fun st => st.visited.length ≤ cfg.maxVisited - 1 + cfg.maxWorkers)
      (fun st _ _ hlt => by
        have hb := step_visited_length cfg web store.persistOk st
        omega)
      fuel (initState seed) s (by simp [initState]) hcl

/-- Witness for C2: a terminated run whose visited count meets the
amended bound. -/
theorem C2_visited_bound_witness :
    runCrawl 5 ⟨3, 2, 2⟩ webThreeLinks storeOk "http://a/" =
      some ⟨.completed, [.completed], [⟨"http://a/", none⟩],
        ["http://a/", "http://a/1", "http://a/2", "http://a/3"],
        [("http://a/", 0), ("http://a/1", 1), ("http://a/2", 1), ("http://a/3", 1)]⟩ ∧
    (["http://a/", "http://a/1", "http://a/2", "http://a/3"] : List String).length ≤
      2 - 1 + 3 :=
  ⟨by decide,
   C2_visited_bound 5 ⟨3, 2, 2⟩ webThreeLinks storeOk "http://a/"
     ⟨.completed, [.completed], [⟨"http://a/", none⟩],
       ["http://a/", "http://a/1", "http://a/2", "http://a/3"],
       [("http://a/", 0), ("http://a/1", 1), ("http://a/2", 1), ("http://a/3", 1)]⟩
     (by decide)⟩

/-- Counterexample to C2 as stated: with max_visited 2 and max_workers
3 a run terminates with four visited URLs, exceeding max_visited
(the same overshoot arises at the defaults 1000 and 10 once 1000 URLs
are reachable, since the cap is only checked between batches). -/
theorem C2_cap_counterexample :
    (runCrawl 5 ⟨3, 2, 2⟩ webThreeLinks storeOk "http://a/").map
        (fun o => o.visited.length) = some 4 ∧ ¬(4 ≤ 2) := by
  refine ⟨by decide, by decide⟩

/-- Claim C3 (amended): per URL string the engine fetches at most
once: the visited set never holds a duplicate, the persisted records
of a run carry pairwise distinct url strings, every record url is
visited, and every visited url was dequeued from the frontier.  (Two
records may still share the same fragment-stripped normalization when
the seed itself carries a fragment, see the counterexample.) -/
theorem C3_fetch_at_most_once :
    ∀ (fuel : Nat) (cfg : CrawlerConfig) (web : Web) (store : StoreBehavior)
      (seed : String) (o : JobOutcome),
      runCrawl fuel cfg web store seed = some o →
      o.visited.Nodup ∧ (o.records.map CrawledRecord.url).Nodup ∧
      (∀ r ∈ o.records, r.url ∈ o.visited) ∧
      (∀ u ∈ o.visited, ∃ d, (u, d) ∈ o.dequeued) := by
  intro fuel cfg web store seed o h
  rcases runCrawl_outcome h with ⟨_, rfl⟩ | ⟨_, s, hcl, hrec, hvis, hdq, _⟩
  · simp
  · rw [hrec, hvis, hdq]
    exact crawlLoop_invariant
      (fun st => st.visited.Nodup ∧ (st.records.map CrawledRecord.url).Nodup ∧
        (∀ r ∈ st.records, r.url ∈ st.visited) ∧
        (∀ u ∈ st.visited, ∃ d, (u, d) ∈ st.dequeued))
      (fun st hP _ _ =>
        step_preserves_onceInv cfg web store.persistOk st hP.1 hP.2.1 hP.2.2.1 hP.2.2.2)
      fuel (initState seed) s (by simp [initState]) hcl

/-- Witness for C3: a three-record run with pairwise distinct record
urls. -/
theorem C3_fetch_at_most_once_witness :
    runCrawl 9 cfgDefault webChain storeOk "http://a/" =
      some ⟨.completed, [.completed],
        [⟨"http://a/", none⟩, ⟨"http://a/1", none⟩, ⟨"http://a/3", none⟩],
        ["http://a/", "http://a/1", "http://a/2", "http://a/3"],
        [("http://a/", 0), ("http://a/1", 1), ("http://a/2", 1), ("http://a/3", 2)]⟩ ∧
    (([⟨"http://a/", none⟩, ⟨"http://a/1", none⟩, ⟨"http://a/3", none⟩] :
        List CrawledRecord).map CrawledRecord.url).Nodup :=
  ⟨by decide,
   (C3_fetch_at_most_once 9 cfgDefault webChain storeOk "http://a/"
     ⟨.completed, [.completed],
       [⟨"http://a/", none⟩, ⟨"http://a/1", none⟩, ⟨"http://a/3", none⟩],
       ["http://a/", "http://a/1", "http://a/2", "http://a/3"],
       [("http://a/", 0), ("http://a/1", 1), ("http://a/2", 1), ("http://a/3", 2)]⟩
     (by decide)).2.1⟩

/-- Counterexample to C3 as stated: a seed carrying a fragment is
fetched as given, its page links the fragment-free form, and both are
fetched and persisted in one run: two records with the same normalized
URL. -/
theorem C3_normalized_dup_counterexample :
    (runCrawl 5 cfgDefault webFragSeed storeOk "http://a/p#x").map
        (fun o => o.records.map CrawledRecord.url) =
      some ["http://a/p#x", "http://a/p"] ∧
    normStr "http://a/p#x" = normStr "http://a/p" ∧
    ("http://a/p#x" : String) ≠ "http://a/p" := by
  refine ⟨by decide, by decide, by decide⟩

/-- Claim C4 (amended): within one run of _crawl the job status is
assigned only terminal values after the initial IN_PROGRESS, the final
status is the last assignment, and the only possible traces are a
single FAILED, a single COMPLETED, or COMPLETED followed by FAILED;
the last trace occurs exactly when the commit after the COMPLETED
assignment raises, so COMPLETED can be overwritten by FAILED in that
one case (and FAILED is never overwritten, and IN_PROGRESS is never
restored). -/
theorem C4_status_monotone_except_commit :
    ∀ (fuel : Nat) (cfg : CrawlerConfig) (web : Web) (store : StoreBehavior)
      (seed : String) (o : JobOutcome),
      runCrawl fuel cfg web store seed = some o →
      JobStatus.inProgress ∉ o.statusTrace ∧
      o.statusTrace.getLast? = some o.status ∧
      (o.statusTrace = [.failed] ∨ o.statusTrace = [.completed] ∨
        o.statusTrace = [.completed, .failed]) ∧
      (o.statusTrace = [.completed, .failed] →
        store.loopFails = false ∧ store.completedCommitOk = false) := by
  intro fuel cfg web store seed o h
  rcases runCrawl_outcome h with ⟨_, rfl⟩ | ⟨hl, s, _, _, _, _,
      ⟨_, hst, htr⟩ | ⟨hc, hst, htr⟩⟩
  · exact ⟨by decide, by decide, Or.inl rfl, by simp⟩
  · rw [hst, htr]
    exact ⟨by decide, by decide, Or.inr (Or.inl rfl), by simp⟩
  · rw [hst, htr]
    exact ⟨by decide, by decide, Or.inr (Or.inr rfl), fun _ => ⟨hl, hc⟩⟩

/-- Witness for C4: a normally completing run never assigns
IN_PROGRESS again. -/
theorem C4_status_witness :
    runCrawl 3 cfgDefault webNone storeOk "http://a/" =
      some ⟨.completed, [.completed], [], ["http://a/"], [("http://a/", 0)]⟩ ∧
    JobStatus.inProgress ∉ [JobStatus.completed] :=
  ⟨by decide,
   (C4_status_monotone_except_commit 3 cfgDefault webNone storeOk "http://a/"
     ⟨.completed, [.completed], [], ["http://a/"], [("http://a/", 0)]⟩ (by decide)).1⟩

/-- Counterexample to C4 as stated: when the commit after the
COMPLETED assignment raises, the except handler of _crawl overwrites
the already-set COMPLETED with FAILED. -/
theorem C4_completed_overwritten_counterexample :
    (runCrawl 3 cfgDefault webNone storeBadCommit "http://a/").map
        (fun o => (o.statusTrace, o.status)) =
      some ([JobStatus.completed, JobStatus.failed], JobStatus.failed) := by
  decide

/-- Claim C5: a successfully fetched page at depth at least max_depth
is still persisted (with the url and extracted title) and returns an
empty new_urls list at its own depth; and the persisted record is the
same at every depth: persistence does not depend on the depth. -/
theorem C5_store_despite_depth :
    ∀ (cfg : CrawlerConfig) (persist : String → Bool) (url : String) (depth : Nat)
      (page : PageSpec), persist url = true → cfg.maxDepth ≤ depth →
      processUrl cfg persist (.ok page) url depth =
        (some ⟨url, page.title⟩, ⟨depth, []⟩) ∧
      (∀ d, (processUrl cfg persist (.ok page) url d).1 = some ⟨url, page.title⟩) := by
  intro cfg persist url depth page hp hd
  constructor
  · have hlt : ¬(depth < cfg.maxDepth) := by omega
    simp [processUrl, hp, hlt]
  · intro d
    by_cases hlt : d < cfg.maxDepth <;> simp [processUrl, hp, hlt]

/-- Witness for C5: a page fetched at depth 2 with max_depth 2 is
persisted and contributes no frontier entries. -/
theorem C5_store_despite_depth_witness :
    processUrl cfgDefault (fun _ => true)
        (.ok ⟨"http://a/", some "T", ["http://a/x"]⟩) "http://a/" 2 =
      (some ⟨"http://a/", some "T"⟩, ⟨2, []⟩) :=
  (C5_store_despite_depth cfgDefault (fun _ => true) "http://a/" 2
    ⟨"http://a/", some "T", ["http://a/x"]⟩ rfl (by decide)).1

/-- Claim C6: the page processor never raises to the loop: a failing
fetch yields no record and an empty new_urls list at the original
depth, and over any whole run every persisted record comes from a URL
whose fetch succeeded (so a fetch-failing URL is never persisted and
the rest of the run is produced regardless). -/
theorem C6_processor_nonthrowing :
    (∀ (cfg : CrawlerConfig) (persist : String → Bool) (url : String) (depth : Nat),
        processUrl cfg persist .fetchErr url depth = (none, ⟨depth, []⟩)) ∧
    (∀ (fuel : Nat) (cfg : CrawlerConfig) (web : Web) (store : StoreBehavior)
        (seed : String) (o : JobOutcome),
        runCrawl fuel cfg web store seed = some o →
        ∀ r ∈ o.records, ∃ page, web r.url = .ok page ∧ r.title = page.title) := by
  constructor
  · intro cfg persist url depth; rfl
  · intro fuel cfg web store seed o h
    rcases runCrawl_outcome h with ⟨_, rfl⟩ | ⟨_, s, hcl, hrec, _⟩
    · simp
    · rw [hrec]
      exact crawlLoop_invariant
        (fun st => ∀ r ∈ st.records, ∃ page, web r.url = .ok page ∧ r.title = page.title)
        (fun st hP _ _ => step_preserves_recordsOk cfg web store.persistOk st hP)
        fuel (initState seed) s (by simp [initState]) hcl

/-- Witness for C6: in a run where http://a/2 fails to fetch, the
record persisted for http://a/1 indeed comes from a successful
fetch. -/
theorem C6_processor_nonthrowing_witness :
    ∃ page, webChain "http://a/1" = FetchResult.ok page ∧
      (none : Option String) = page.title :=
  C6_processor_nonthrowing.2 9 cfgDefault webChain storeOk "http://a/"
    ⟨.completed, [.completed],
      [⟨"http://a/", none⟩, ⟨"http://a/1", none⟩, ⟨"http://a/3", none⟩],
      ["http://a/", "http://a/1", "http://a/2", "http://a/3"],
      [("http://a/", 0), ("http://a/1", 1), ("http://a/2", 1), ("http://a/3", 2)]⟩
    (by decide) ⟨"http://a/1", none⟩ (by decide)

/-- Claim C9: the frontier is a strict FIFO queue: each iteration
dequeues exactly the first min(max_workers, frontier length) items,
appends the discovered items at the back tagged with the originating
depth plus one, and over any whole run the dequeued depth sequence is
non-decreasing (level-order traversal). -/
theorem C9_bfs_fifo :
    (∀ (cfg : CrawlerConfig) (web : Web) (persist : String → Bool) (s : CrawlState),
        (step cfg web persist s).dequeued = s.dequeued ++ s.frontier.take cfg.maxWorkers ∧
        (s.frontier.take cfg.maxWorkers).length = min cfg.maxWorkers s.frontier.length ∧
        ∃ news, (step cfg web persist s).frontier =
            s.frontier.drop cfg.maxWorkers ++ news ∧
          ∀ x ∈ news, ∃ t ∈ s.frontier.take cfg.maxWorkers, x.2 = t.2 + 1) ∧
    (∀ (fuel : Nat) (cfg : CrawlerConfig) (web : Web) (store : StoreBehavior)
        (seed : String) (o : JobOutcome),
        runCrawl fuel cfg web store seed = some o →
        (o.dequeued.map Prod.snd).Pairwise (· ≤ ·)) := by
  constructor
  · intro cfg web persist s
    refine ⟨step_dequeued_eq cfg web persist s, List.length_take _ _, ?_⟩
    refine ⟨_, step_frontier_eq cfg web persist s, ?_⟩
    intro x hx
    obtain ⟨r, hr, hd⟩ := newItemsOf_forall _ _ _ x hx
    obtain ⟨t, ht, rfl⟩ := List.mem_map.mp hr
    rw [processUrl_depth] at hd
    exact ⟨t, (selectTasks_snd_sublist _ _).subset ht, hd⟩
  · intro fuel cfg web store seed o h
    rcases runCrawl_outcome h with ⟨_, rfl⟩ | ⟨_, s, hcl, _, _, hdq, _⟩
    · simp
    · rw [hdq]
      have hinv := crawlLoop_invariant DepthInv
        (fun st hP _ _ => step_preserves_DepthInv cfg web store.persistOk st hP)
        fuel (initState seed) s ?_ hcl
      · exact hinv.2.2.1
      · refine ⟨?_, ?_, ?_, ?_⟩ <;> simp [initState, DepthInv]

/-- Witness for C9: the dequeue order of a two-level crawl has
non-decreasing depths 0, 1, 1, 2. -/
theorem C9_bfs_fifo_witness :
    runCrawl 9 cfgDefault webChain storeOk "http://a/" =
      some ⟨.completed, [.completed],
        [⟨"http://a/", none⟩, ⟨"http://a/1", none⟩, ⟨"http://a/3", none⟩],
        ["http://a/", "http://a/1", "http://a/2", "http://a/3"],
        [("http://a/", 0), ("http://a/1", 1), ("http://a/2", 1), ("http://a/3", 2)]⟩ ∧
    ((([("http://a/", 0), ("http://a/1", 1), ("http://a/2", 1), ("http://a/3", 2)] :
        List (String × Nat)).map Prod.snd).Pairwise (· ≤ ·)) :=
  ⟨by decide,
   C9_bfs_fifo.2 9 cfgDefault webChain storeOk "http://a/"
     ⟨.completed, [.completed],
       [⟨"http://a/", none⟩, ⟨"http://a/1", none⟩, ⟨"http://a/3", none⟩],
       ["http://a/", "http://a/1", "http://a/2", "http://a/3"],
       [("http://a/", 0), ("http://a/1", 1), ("http://a/2", 1), ("http://a/3", 2)]⟩
     (by decide)⟩

/-- Claim C10: a record-commit failure is absorbed inside the page
processor (empty result, no stored row, links unexplored), and the
final status of a run does not depend on record commits: it is FAILED
exactly when the loop itself raised or the terminal COMPLETED commit
raised, and COMPLETED exactly otherwise. -/
theorem C10_persist_failure_absorbed :
    (∀ (cfg : CrawlerConfig) (persist : String → Bool) (url : String) (depth : Nat)
        (page : PageSpec), persist url = false →
        processUrl cfg persist (.ok page) url depth = (none, ⟨depth, []⟩)) ∧
    (∀ (fuel : Nat) (cfg : CrawlerConfig) (web : Web) (store : StoreBehavior)
        (seed : String) (o : JobOutcome),
        runCrawl fuel cfg web store seed = some o →
        (o.status = .failed ↔
          (store.loopFails = true ∨ store.completedCommitOk = false)) ∧
        (o.status = .completed ↔
          (store.loopFails = false ∧ store.completedCommitOk = true))) := by
  constructor
  · intro cfg persist url depth page hp
    simp [processUrl, hp]
  · intro fuel cfg web store seed o h
    rcases runCrawl_outcome h with ⟨hl, rfl⟩ | ⟨hl, s, _, _, _, _,
        ⟨hc, hst, _⟩ | ⟨hc, hst, _⟩⟩
    · simp [hl]
    · rw [hst]; simp [hl, hc]
    · rw [hst]; simp [hl, hc]

/-- Witness for C10: when every record commit fails the seed page is
dropped without a stored row, yet the job still ends COMPLETED. -/
theorem C10_persist_failure_absorbed_witness :
    runCrawl 3 cfgDefault webThreeLinks storeBadPersist "http://a/" =
      some ⟨.completed, [.completed], [], ["http://a/"], [("http://a/", 0)]⟩ ∧
    ((JobStatus.completed : JobStatus) = .completed ↔
      (storeBadPersist.loopFails = false ∧ storeBadPersist.completedCommitOk = true)) :=
  ⟨by decide,
   (C10_persist_failure_absorbed.2 3 cfgDefault webThreeLinks storeBadPersist "http://a/"
     ⟨.completed, [.completed], [], ["http://a/"], [("http://a/", 0)]⟩ (by decide)).2⟩

/-! ## Helper lemmas: character splitting -/

theorem splitAtFirst_of_not_mem {c : Char} : ∀ {l : List Char}, c ∉ l →
    splitAtFirst c l = (l, none) := by
  intro l
  induction l with
  | nil => intro _; rfl
  | cons x xs ih =>
    intro h
    have hx : ¬(x = c) := fun he => h (he ▸ List.mem_cons_self ..)
    have hxs : c ∉ xs := fun hm => h (List.mem_cons_of_mem _ hm)
    simp [splitAtFirst, hx, ih hxs]

theorem splitAtFirst_append {c : Char} {a b : List Char} (h : c ∉ a) :
    splitAtFirst c (a ++ c :: b) = (a, some b) := by
  induction a with
  | nil => simp [splitAtFirst]
  | cons x xs ih =>
    have hx : ¬(x = c) := fun he => h (he ▸ List.mem_cons_self ..)
    have hxs : c ∉ xs := fun hm => h (List.mem_cons_of_mem _ hm)
    simp [splitAtFirst, hx, ih hxs]

theorem mem_splitAtFirst_fst {c x : Char} : ∀ {l : List Char},
    x ∈ (splitAtFirst c l).1 → x ∈ l := by
  intro l
  induction l with
  | nil => simp [splitAtFirst]
  | cons y ys ih =>
    by_cases hy : y = c
    · simp [splitAtFirst, hy]
    · simp only [splitAtFirst, if_neg hy, List.mem_cons]
      rintro (rfl | hm)
      · exact Or.inl rfl
      · exact Or.inr (ih hm)

theorem not_mem_splitAtFirst_fst (c : Char) : ∀ (l : List Char),
    c ∉ (splitAtFirst c l).1 := by
  intro l
  induction l with
  | nil => simp [splitAtFirst]
  | cons y ys ih =>
    by_cases hy : y = c
    · simp [splitAtFirst, hy]
    · simp only [splitAtFirst, if_neg hy, List.mem_cons, not_or]
      exact ⟨fun he => hy he.symm, ih⟩

theorem mem_splitAtFirst_snd {c x : Char} : ∀ {l t : List Char},
    (splitAtFirst c l).2 = some t → x ∈ t → x ∈ l := by
  intro l
  induction l with
  | nil => simp [splitAtFirst]
  | cons y ys ih =>
    intro t
    by_cases hy : y = c
    · simp only [splitAtFirst, if_pos hy]
      rintro h hm
      obtain rfl := Option.some.inj h
      exact List.mem_cons_of_mem _ hm
    · simp only [splitAtFirst, if_neg hy]
      intro h hm
      exact List.mem_cons_of_mem _ (ih h hm)

theorem cutAt_fst (c : Char) (l : List Char) : (cutAt c l).1 = (splitAtFirst c l).1 := by
  unfold cutAt
  rcases h : splitAtFirst c l with ⟨a, o⟩
  cases o <;> simp

theorem cutAt_of_not_mem {c : Char} {l : List Char} (h : c ∉ l) : cutAt c l = (l, []) := by
  simp [cutAt, splitAtFirst_of_not_mem h]

theorem cutAt_append {c : Char} {a b : List Char} (h : c ∉ a) :
    cutAt c (a ++ c :: b) = (a, b) := by
  simp [cutAt, splitAtFirst_append h]

theorem mem_cutAt_fst {c x : Char} {l : List Char} (h : x ∈ (cutAt c l).1) : x ∈ l := by
  rw [cutAt_fst] at h
  exact mem_splitAtFirst_fst h

theorem not_mem_cutAt_fst (c : Char) (l : List Char) : c ∉ (cutAt c l).1 := by
  rw [cutAt_fst]
  exact not_mem_splitAtFirst_fst c l

theorem mem_cutAt_snd {c x : Char} {l : List Char} (h : x ∈ (cutAt c l).2) : x ∈ l := by
  unfold cutAt at h
  rcases hs : splitAtFirst c l with ⟨a, o⟩
  cases o with
  | none => rw [hs] at h; simp at h
  | some t =>
    rw [hs] at h
    simp only at h
    exact mem_splitAtFirst_snd (by rw [hs]) h

theorem splitNetlocChars_fst_no_delim : ∀ (l : List Char),
    ∀ x ∈ (splitNetlocChars l).1, netlocDelim x = false := by
  intro l
  induction l with
  | nil => simp [splitNetlocChars]
  | cons y ys ih =>
    by_cases hy : netlocDelim y
    · simp [splitNetlocChars, hy]
    · simp only [splitNetlocChars, if_neg hy, List.mem_cons]
      rintro x (rfl | hm)
      · simpa using hy
      · exact ih x hm

theorem splitNetlocChars_append : ∀ {n r : List Char},
    (∀ x ∈ n, netlocDelim x = false) →
    (∀ c, r.head? = some c → netlocDelim c = true) →
    splitNetlocChars (n ++ r) = (n, r) := by
  intro n
  induction n with
  | nil =>
    intro r _ hr
    cases r with
    | nil => rfl
    | cons c t => simp [splitNetlocChars, hr c rfl]
  | cons x xs ih =>
    intro r hn hr
    have hx : netlocDelim x = false := hn x (List.mem_cons_self ..)
    have hxs : ∀ y ∈ xs, netlocDelim y = false :=
      fun y hy => hn y (List.mem_cons_of_mem _ hy)
    simp [splitNetlocChars, hx, ih hxs hr]

/-! ## Helper lemmas: shape of urlsplit outputs -/

theorem parseCore_components (dflt l : List Char) :
    (∀ x ∈ (parseCore dflt l).netloc, netlocDelim x = false) ∧
    '#' ∉ (parseCore dflt l).path ∧ '?' ∉ (parseCore dflt l).path ∧
    '#' ∉ (parseCore dflt l).query := by
  simp only [parseCore]
  refine ⟨?_, ?_, ?_, ?_⟩
  · split
    · exact splitNetlocChars_fst_no_delim _
    · simp
  · intro h
    exact not_mem_cutAt_fst '#' _ (mem_cutAt_fst h)
  · exact not_mem_cutAt_fst '?' _
  · intro h
    exact not_mem_cutAt_fst '#' _ (mem_cutAt_snd h)

theorem fixP_head (p : List Char) : fixP p = [] ∨ (fixP p).head? = some '/' := by
  by_cases h : p ≠ [] ∧ p.head? ≠ some '/'
  · right
    rw [fixP, if_pos h]
    rfl
  · rw [fixP, if_neg h]
    push_neg at h
    by_cases hp : p = []
    · exact Or.inl hp
    · exact Or.inr (h hp)

theorem mem_fixP {x : Char} {p : List Char} (h : x ∈ fixP p) : x = '/' ∨ x ∈ p := by
  rw [fixP] at h
  split at h
  · rcases List.mem_cons.mp h with rfl | hm
    · exact Or.inl rfl
    · exact Or.inr hm
  · exact Or.inr h

theorem fixP_idem (p : List Char) : fixP (fixP p) = fixP p := by
  rcases fixP_head p with h | h
  · rw [h]
    rfl
  · have hne : ¬(fixP p ≠ [] ∧ (fixP p).head? ≠ some '/') := fun hc => hc.2 h
    rw [fixP, if_neg hne]

theorem splitSchemeChars_http (R : List Char) :
    splitSchemeChars ("http".data ++ ':' :: R) = some ("http".data, R) := by
  unfold splitSchemeChars
  rw [splitAtFirst_append (by decide)]
  rfl

theorem splitSchemeChars_https (R : List Char) :
    splitSchemeChars ("https".data ++ ':' :: R) = some ("https".data, R) := by
  unfold splitSchemeChars
  rw [splitAtFirst_append (by decide)]
  rfl

theorem unparseCore_auth_shape {s n p q : List Char} (hs : s ≠ []) (hn : n ≠ []) :
    unparseCore ⟨s, n, p, q, []⟩ =
      s ++ ':' :: '/' :: '/' :: (n ++ fixP p ++ (if q = [] then [] else '?' :: q)) := by
  by_cases hq : q = []
  · simp [unparseCore, hs, hn, hq]
  · simp [unparseCore, hs, hn, hq, List.append_assoc]

/-! ## Helper lemmas: reparsing a serialized URL with authority -/

theorem parseCore_scheme_auth (d s n r : List Char)
    (hsch : splitSchemeChars (s ++ ':' :: '/' :: '/' :: (n ++ r)) =
      some (s, '/' :: '/' :: (n ++ r)))
    (hnd : ∀ x ∈ n, netlocDelim x = false)
    (hr : ∀ c, r.head? = some c → netlocDelim c = true) :
    parseCore d (s ++ ':' :: '/' :: '/' :: (n ++ r)) =
      ⟨s, n, (cutAt '?' (cutAt '#' r).1).1, (cutAt '?' (cutAt '#' r).1).2,
        (cutAt '#' r).2⟩ := by
  simp only [parseCore, hsch]
  have ht : ('/' :: '/' :: (n ++ r)).take 2 = ['/', '/'] := rfl
  have hd2 : ('/' :: '/' :: (n ++ r)).drop 2 = n ++ r := rfl
  simp only [ht, hd2, if_pos, splitNetlocChars_append hnd hr]

theorem parse_unparse_auth (d : List Char) {s n p q : List Char}
    (hs : s = "http".data ∨ s = "https".data) (hn : n ≠ [])
    (hnd : ∀ x ∈ n, netlocDelim x = false)
    (hp1 : '#' ∉ p) (hp2 : '?' ∉ p) (hq : '#' ∉ q) :
    parseCore d (unparseCore ⟨s, n, p, q, []⟩) = ⟨s, n, fixP p, q, []⟩ := by
  have hs_ne : s ≠ [] := by rcases hs with rfl | rfl <;> decide
  have hfp_hash : '#' ∉ fixP p := fun hm => by
    rcases mem_fixP hm with h | h
    · exact absurd h (by decide)
    · exact hp1 h
  have hfp_qm : '?' ∉ fixP p := fun hm => by
    rcases mem_fixP hm with h | h
    · exact absurd h (by decide)
    · exact hp2 h
  have hsch : ∀ RR : List Char, splitSchemeChars (s ++ ':' :: RR) = some (s, RR) := by
    rcases hs with rfl | rfl
    · exact splitSchemeChars_http
    · exact splitSchemeChars_https
  by_cases hq0 : q = []
  · subst hq0
    rw [unparseCore_auth_shape hs_ne hn]
    rw [if_pos rfl, List.append_nil]
    have hhead : ∀ c, (fixP p).head? = some c → netlocDelim c = true := by
      rcases fixP_head p with hfp | hfp
      · rw [hfp]; intro c hc; simp at hc
      · intro c hc
        rw [hfp] at hc
        obtain rfl := Option.some.inj hc
        decide
    rw [parseCore_scheme_auth d s n (fixP p) (hsch _) hnd hhead]
    rw [cutAt_of_not_mem hfp_hash]
    simp only []
    rw [cutAt_of_not_mem hfp_qm]
  · rw [unparseCore_auth_shape hs_ne hn]
    rw [if_neg hq0, List.append_assoc]
    have hhead : ∀ c, (fixP p ++ '?' :: q).head? = some c → netlocDelim c = true := by
      rcases fixP_head p with hfp | hfp
      · rw [hfp, List.nil_append]
        intro c hc
        obtain rfl := Option.some.inj hc
        decide
      · intro c hc
        cases hfpl : fixP p with
        | nil => rw [hfpl] at hfp; simp at hfp
        | cons a t =>
          rw [hfpl] at hfp
          obtain rfl := Option.some.inj hfp
          rw [hfpl] at hc
          simp only [List.cons_append, List.head?_cons] at hc
          obtain rfl := Option.some.inj hc
          decide
    have hhash : '#' ∉ fixP p ++ '?' :: q := fun hm => by
      rcases List.mem_append.mp hm with h | h
      · exact hfp_hash h
      · rcases List.mem_cons.mp h with h | h
        · exact absurd h (by decide)
        · exact hq h
    rw [parseCore_scheme_auth d s n (fixP p ++ '?' :: q) (hsch _) hnd hhead]
    rw [cutAt_of_not_mem hhash]
    simp only []
    rw [cutAt_append hfp_qm]

theorem splitNetlocChars_delim_head {c : Char} {l : List Char} (h : netlocDelim c = true) :
    splitNetlocChars (c :: l) = ([], c :: l) := by
  simp [splitNetlocChars, h]

theorem parse_unparse_noauth (d : List Char) {s p q : List Char}
    (hs : s = "http".data ∨ s = "https".data) :
    (parseCore d (unparseCore ⟨s, [], p, q, []⟩)).netloc = [] := by
  have hs_ne : s ≠ [] := by rcases hs with rfl | rfl <;> decide
  have hsch : ∀ RR : List Char, splitSchemeChars (s ++ ':' :: RR) = some (s, RR) := by
    rcases hs with rfl | rfl
    · exact splitSchemeChars_http
    · exact splitSchemeChars_https
  by_cases hpp : p.take 2 = ['/', '/']
  · obtain ⟨t, rfl⟩ : ∃ t, p = '/' :: '/' :: t := by
      cases p with
      | nil => simp at hpp
      | cons a p' =>
        cases p' with
        | nil => simp at hpp
        | cons b t =>
          have h2 : ([a, b] : List Char) = ['/', '/'] := hpp
          obtain ⟨rfl, rfl⟩ : a = '/' ∧ b = '/' := by
            injection h2 with h2a h2b
            injection h2b with h2b _
            exact ⟨h2a, h2b⟩
          exact ⟨t, rfl⟩
    have hfix : fixP ('/' :: '/' :: t) = '/' :: '/' :: t := by
      rw [fixP, if_neg]
      rintro ⟨_, h2⟩
      exact h2 rfl
    have hshape : unparseCore ⟨s, [], '/' :: '/' :: t, q, []⟩ =
        s ++ ':' :: '/' :: '/' :: ('/' :: '/' :: t ++
          (if q = [] then [] else '?' :: q)) := by
      by_cases hq0 : q = [] <;>
        simp [unparseCore, hs_ne, hq0, hpp, hfix, List.append_assoc]
    rw [hshape]
    simp only [parseCore, hsch]
    have ht : ('/' :: '/' :: ('/' :: '/' :: t ++
        (if q = [] then [] else '?' :: q))).take 2 = ['/', '/'] := rfl
    have hd2 : ('/' :: '/' :: ('/' :: '/' :: t ++
        (if q = [] then [] else '?' :: q))).drop 2 =
        '/' :: ('/' :: t ++ (if q = [] then [] else '?' :: q)) := rfl
    simp only [ht, hd2, if_pos, splitNetlocChars_delim_head (show netlocDelim '/' = true by decide)]
  · have hshape : unparseCore ⟨s, [], p, q, []⟩ =
        s ++ ':' :: (p ++ (if q = [] then [] else '?' :: q)) := by
      by_cases hq0 : q = [] <;>
        simp [unparseCore, hs_ne, hq0, hpp, List.append_assoc]
    rw [hshape]
    simp only [parseCore, hsch]
    have hcond : ¬((p ++ (if q = [] then [] else '?' :: q)).take 2 = ['/', '/']) := by
      intro h
      cases p with
      | nil =>
        by_cases hq0 : q = []
        · rw [hq0] at h; simp at h
        · rw [if_neg hq0] at h
          simp only [List.nil_append] at h
          have h2 : ('?' :: q.take 1 : List Char) = ['/', '/'] := h
          injection h2 with h2a _
          exact absurd h2a (by decide)
      | cons a p' =>
        cases p' with
        | nil =>
          by_cases hq0 : q = []
          · rw [hq0] at h
            simp at h
          · rw [if_neg hq0] at h
            have h2 : (a :: '?' :: q.take 0 : List Char) = ['/', '/'] := h
            injection h2 with _ h2b
            injection h2b with h2b _
            exact absurd h2b (by decide)
        | cons b t =>
          have h2 : ([a, b] : List Char) = ['/', '/'] := h
          exact hpp h2
    rw [if_neg hcond]

theorem stripFragU_eq (u : Url) :
    stripFragU u = ⟨u.scheme, u.netloc, u.path, u.query, []⟩ := rfl

theorem stripFragU_mk (s n p q f : List Char) :
    stripFragU ⟨s, n, p, q, f⟩ = ⟨s, n, p, q, []⟩ := rfl

theorem urlparse_urlunparse (u : Url) :
    urlparse (urlunparse u) = parseCore [] (unparseCore u) := rfl

theorem urlunparse_data (u : Url) : (urlunparse u).data = unparseCore u := rfl

theorem unparseCore_fixP {s n p q : List Char} (hn : n ≠ []) :
    unparseCore ⟨s, n, fixP p, q, []⟩ = unparseCore ⟨s, n, p, q, []⟩ := by
  simp only [unparseCore]
  rw [if_pos (Or.inl hn), if_pos (Or.inl hn), fixP_idem]

theorem urlunparse_fixP {s n p q : List Char} (hn : n ≠ []) :
    urlunparse ⟨s, n, fixP p, q, []⟩ = urlunparse ⟨s, n, p, q, []⟩ :=
  congrArg String.mk (unparseCore_fixP hn)

/-! ## Claims C7 and C8 -/

/-- Claim C7: the link-normalization block resolves the href against
the base with urljoin and returns none exactly when the resolved
scheme is neither http nor https or the resolved netloc differs from
the netloc of the base; otherwise it returns the resolved URL
serialized from its own scheme, netloc, path and query with the
fragment cleared (path and query unchanged, fragment removed). -/
theorem C7_normalize_scope_spec :
    ∀ base href : String,
      (normalizeScope base href = none ↔
        ¬(((urlparse (urljoin base href)).scheme = "http".data ∨
           (urlparse (urljoin base href)).scheme = "https".data) ∧
          (urlparse (urljoin base href)).netloc = (urlparse base).netloc)) ∧
      (∀ out, normalizeScope base href = some out →
        out = urlunparse ⟨(urlparse (urljoin base href)).scheme,
          (urlparse (urljoin base href)).netloc,
          (urlparse (urljoin base href)).path,
          (urlparse (urljoin base href)).query, []⟩) := by
  intro base href
  by_cases hc : ((urlparse (urljoin base href)).scheme = "http".data ∨
      (urlparse (urljoin base href)).scheme = "https".data) ∧
      (urlparse (urljoin base href)).netloc = (urlparse base).netloc
  · constructor
    · simp [normalizeScope, hc]
    · intro out h
      simp only [normalizeScope] at h
      rw [if_pos hc] at h
      obtain rfl := (Option.some.inj h).symm
      rw [stripFragU_eq]
  · constructor
    · simp [normalizeScope, hc]
    · intro out h
      simp only [normalizeScope] at h
      rw [if_neg hc] at h
      exact absurd h (by simp)

/-- Witness for C7: a relative href with query and fragment resolved
against a directory base keeps its path and query and loses the
fragment. -/
theorem C7_normalize_scope_witness :
    normalizeScope "http://h/d/" "../a?z#f" = some "http://h/a?z" ∧
    "http://h/a?z" = urlunparse ⟨(urlparse (urljoin "http://h/d/" "../a?z#f")).scheme,
      (urlparse (urljoin "http://h/d/" "../a?z#f")).netloc,
      (urlparse (urljoin "http://h/d/" "../a?z#f")).path,
      (urlparse (urljoin "http://h/d/" "../a?z#f")).query, []⟩ :=
  ⟨by decide,
   (C7_normalize_scope_spec "http://h/d/" "../a?z#f").2 "http://h/a?z" (by decide)⟩

theorem urljoin_self_auth {s n p q : List Char}
    (hs : s = "http".data ∨ s = "https".data) (hn : n ≠ [])
    (hnd : ∀ x ∈ n, netlocDelim x = false)
    (hp1 : '#' ∉ p) (hp2 : '?' ∉ p) (hq : '#' ∉ q) :
    urljoin (urlunparse ⟨s, n, p, q, []⟩) (urlunparse ⟨s, n, p, q, []⟩) =
      urlunparse ⟨s, n, fixP p, q, []⟩ := by
  have hP : ∀ dd : List Char, parseCore dd (unparseCore ⟨s, n, p, q, []⟩) =
      ⟨s, n, fixP p, q, []⟩ := fun dd => parse_unparse_auth dd hs hn hnd hp1 hp2 hq
  have hEne : urlunparse ⟨s, n, p, q, []⟩ ≠ "" := by
    intro he
    have h2 : (parseCore ([] : List Char) (urlunparse ⟨s, n, p, q, []⟩).data).netloc = n := by
      rw [urlunparse_data, hP []]
    rw [he] at h2
    exact hn h2.symm
  have hrel : s ∈ usesRelativeList := by rcases hs with rfl | rfl <;> decide
  have husen : s ∈ usesNetlocList := by rcases hs with rfl | rfl <;> decide
  simp only [urljoin]
  rw [if_neg hEne, if_neg hEne]
  simp only [urlunparse_data, hP]
  simp [hrel, husen, hn]

/-- Claim C8 (amended): normalization is idempotent on every output
whose authority (netloc) is nonempty — in particular on every URL the
crawler can enqueue from a page whose own URL has an authority, since
an output inherits the netloc of its base.  Outputs with an empty
authority (possible only from an authority-less base such as
http:a/../b) can change again under renormalization, because urljoin
then merges the path with itself and collapses dot segments (see the
counterexample). -/
theorem C8_idempotent_with_authority :
    ∀ base href out : String, normalizeScope base href = some out →
      (urlparse out).netloc ≠ [] → normalizeScope out out = some out := by
  intro base href out h hnet
  simp only [normalizeScope] at h
  by_cases hc : ((urlparse (urljoin base href)).scheme = "http".data ∨
      (urlparse (urljoin base href)).scheme = "https".data) ∧
      (urlparse (urljoin base href)).netloc = (urlparse base).netloc
  case neg =>
    rw [if_neg hc] at h
    exact absurd h (by simp)
  rw [if_pos hc] at h
  obtain rfl := (Option.some.inj h).symm
  rw [stripFragU_eq] at hnet ⊢
  obtain ⟨hnd0, hp10, hp20, hq0⟩ := parseCore_components [] (urljoin base href).data
  have hnd : ∀ x ∈ (urlparse (urljoin base href)).netloc, netlocDelim x = false := hnd0
  have hp1 : '#' ∉ (urlparse (urljoin base href)).path := hp10
  have hp2 : '?' ∉ (urlparse (urljoin base href)).path := hp20
  have hq : '#' ∉ (urlparse (urljoin base href)).query := hq0
  by_cases hn0 : (urlparse (urljoin base href)).netloc = []
  · -- an authority-less output reparses with an empty netloc,
    -- contradicting the hypothesis
    exfalso
    apply hnet
    rw [urlparse_urlunparse, hn0]
    exact parse_unparse_noauth [] hc.1
  · have hjoin := urljoin_self_auth hc.1 hn0 hnd hp1 hp2 hq
    have hP : ∀ dd : List Char,
        parseCore dd (unparseCore ⟨(urlparse (urljoin base href)).scheme,
          (urlparse (urljoin base href)).netloc,
          (urlparse (urljoin base href)).path,
          (urlparse (urljoin base href)).query, []⟩) =
        ⟨(urlparse (urljoin base href)).scheme,
          (urlparse (urljoin base href)).netloc,
          fixP (urlparse (urljoin base href)).path,
          (urlparse (urljoin base href)).query, []⟩ :=
      fun dd => parse_unparse_auth dd hc.1 hn0 hnd hp1 hp2 hq
    simp only [normalizeScope]
    rw [hjoin, urlparse_urlunparse]
    have hp1f : '#' ∉ fixP (urlparse (urljoin base href)).path := fun hm => by
      rcases mem_fixP hm with h1 | h1
      · exact absurd h1 (by decide)
      · exact hp1 h1
    have hp2f : '?' ∉ fixP (urlparse (urljoin base href)).path := fun hm => by
      rcases mem_fixP hm with h1 | h1
      · exact absurd h1 (by decide)
      · exact hp2 h1
    rw [parse_unparse_auth [] hc.1 hn0 hnd hp1f hp2f hq, fixP_idem]
    have hbp : (urlparse (urlunparse ⟨(urlparse (urljoin base href)).scheme,
        (urlparse (urljoin base href)).netloc,
        (urlparse (urljoin base href)).path,
        (urlparse (urljoin base href)).query, []⟩)).netloc =
        (urlparse (urljoin base href)).netloc := by
      rw [urlparse_urlunparse, hP []]
    rw [stripFragU_mk, hbp]
    rw [if_pos ⟨hc.1, rfl⟩]
    exact congrArg some (urlunparse_fixP hn0)

/-- Witness for C8: the output http://h/a renormalizes, with itself as
base, to itself. -/
theorem C8_idempotent_witness :
    normalizeScope "http://h/" "a#b" = some "http://h/a" ∧
    normalizeScope "http://h/a" "http://h/a" = some "http://h/a" :=
  ⟨by decide,
   C8_idempotent_with_authority "http://h/" "a#b" "http://h/a" (by decide) (by decide)⟩

/-- Counterexample to C8 as stated: http:a/../b is an output of the
normalization step (scheme http, netloc matching its base, no
fragment), yet renormalizing it with itself as base collapses the dot
segments and yields the different string http:b. -/
theorem C8_idempotence_counterexample :
    normalizeScope "http:a/../b" "" = some "http:a/../b" ∧
    normalizeScope "http:a/../b" "http:a/../b" = some "http:b" ∧
    ("http:b" : String) ≠ "http:a/../b" := by
  refine ⟨by decide, by decide, by decide⟩
